import Mathlib

/-!
# Verification of `src/commitment_scheme/blake2_hash.rs`

A shallow embedding of the BLAKE2s hashing wrapper of the repository:
the digest value type `Blake2sHash`, its conversions and hex display,
the stateful `Blake2sHasher`, and the unsafe batch entry point
`hash_many_in_place` over a byte-addressed memory model.

The concrete digest computation delegated by the source to the external
`blake2` crate (`Blake2s256`, `Blake2sVar`) is embedded as an executable
BLAKE2s function following RFC 7693 (unkeyed, sequential mode), with
32-bit words represented as `Nat` reduced modulo `2^32` at each
arithmetic step. Bytes are `Fin 256`.
-/

set_option maxRecDepth 100000

/-- A byte, as stored in Rust `u8`. -/
abbrev Byte := Fin 256

/-- Reduce a natural number to a byte. -/
def byteOf (x : Nat) : Byte := ⟨x % 256, Nat.mod_lt x (by decide)⟩

/-- 2^32, the modulus of BLAKE2s word arithmetic. -/
def W32 : Nat := 4294967296

/-- 32-bit right rotation on a word already reduced mod `2^32`. -/
def rotr32 (x n : Nat) : Nat := ((x >>> n) ||| (x <<< (32 - n))) % W32

/-- The BLAKE2s initialization vector (RFC 7693 §2.6). -/
def blakeIV : List Nat :=
  [0x6A09E667, 0xBB67AE85, 0x3C6EF372, 0xA54FF53A,
   0x510E527F, 0x9B05688C, 0x1F83D9AB, 0x5BE0CD19]

/-- The BLAKE2s message schedule permutations (RFC 7693 §2.7). -/
def blakeSigma : List (List Nat) :=
  [[0, 1, 2, 3, 4, 5, 6, 7, 8, 9, 10, 11, 12, 13, 14, 15],
   [14, 10, 4, 8, 9, 15, 13, 6, 1, 12, 0, 2, 11, 7, 5, 3],
   [11, 8, 12, 0, 5, 2, 15, 13, 10, 14, 3, 6, 7, 1, 9, 4],
   [7, 9, 3, 1, 13, 12, 11, 14, 2, 6, 5, 10, 4, 0, 15, 8],
   [9, 0, 5, 7, 2, 4, 10, 15, 14, 1, 11, 12, 6, 8, 3, 13],
   [2, 12, 6, 10, 0, 11, 8, 3, 4, 13, 7, 5, 15, 14, 1, 9],
   [12, 5, 1, 15, 14, 13, 4, 10, 0, 7, 6, 3, 9, 2, 8, 11],
   [13, 11, 7, 14, 12, 1, 3, 9, 5, 0, 15, 4, 8, 6, 2, 10],
   [6, 15, 14, 9, 11, 3, 0, 8, 12, 2, 13, 7, 1, 4, 10, 5],
   [10, 2, 8, 4, 7, 6, 1, 5, 15, 11, 9, 14, 3, 12, 13, 0]]

/-- The BLAKE2s mixing function G (RFC 7693 §3.1), acting on the
16-word work vector `v` at positions `a b c d` with message words `x y`. -/
def blakeG (v : List Nat) (a b c d x y : Nat) : List Nat :=
  let va := (v.getD a 0 + v.getD b 0 + x) % W32
  let vd := rotr32 ((v.getD d 0) ^^^ va) 16
  let vc := (v.getD c 0 + vd) % W32
  let vb := rotr32 ((v.getD b 0) ^^^ vc) 12
  let va2 := (va + vb + y) % W32
  let vd2 := rotr32 (vd ^^^ va2) 8
  let vc2 := (vc + vd2) % W32
  let vb2 := rotr32 (vb ^^^ vc2) 7
  (((v.set a va2).set b vb2).set c vc2).set d vd2

/-- One round of the BLAKE2s compression: eight G applications with the
message words selected by the permutation row `s`. -/
def blakeRound (m : List Nat) (v : List Nat) (s : List Nat) : List Nat :=
  let mi := fun i => m.getD (s.getD i 0) 0
  let v1 := blakeG v 0 4 8 12 (mi 0) (mi 1)
  let v2 := blakeG v1 1 5 9 13 (mi 2) (mi 3)
  let v3 := blakeG v2 2 6 10 14 (mi 4) (mi 5)
  let v4 := blakeG v3 3 7 11 15 (mi 6) (mi 7)
  let v5 := blakeG v4 0 5 10 15 (mi 8) (mi 9)
  let v6 := blakeG v5 1 6 11 12 (mi 10) (mi 11)
  let v7 := blakeG v6 2 7 8 13 (mi 12) (mi 13)
  blakeG v7 3 4 9 14 (mi 14) (mi 15)

/-- The BLAKE2s compression function F (RFC 7693 §3.2): `h` is the 8-word
chain value, `m` the 16 message words, `t` the byte counter and `f` the
final-block flag. -/
def blakeCompress (h : List Nat) (m : List Nat) (t : Nat) (f : Bool) : List Nat :=
  let v0 := h ++ blakeIV
  let v1 := v0.set 12 ((v0.getD 12 0) ^^^ (t % W32))
  let v2 := v1.set 13 ((v1.getD 13 0) ^^^ ((t / W32) % W32))
  let v3 := if f then v2.set 14 ((v2.getD 14 0) ^^^ 0xFFFFFFFF) else v2
  let v := blakeSigma.foldl (fun w s => blakeRound m w s) v3
  (List.range 8).map (fun i => (h.getD i 0) ^^^ (v.getD i 0) ^^^ (v.getD (i + 8) 0))

/-- Pad a block of at most 64 bytes with zero bytes up to 64 bytes
(RFC 7693 §3.3: the final data block is padded with zeros). -/
def padBlock (bs : List Byte) : List Byte :=
  bs ++ List.replicate (64 - bs.length) (0 : Byte)

/-- Interpret a 64-byte block as 16 little-endian 32-bit words. -/
def wordsOfBlock (bs : List Byte) : List Nat :=
  (List.range 16).map (fun i =>
    (bs.getD (4 * i) 0).val + 256 * (bs.getD (4 * i + 1) 0).val +
    65536 * (bs.getD (4 * i + 2) 0).val + 16777216 * (bs.getD (4 * i + 3) 0).val)

/-- Main BLAKE2s block loop, with structural recursion on a fuel bound so
that the kernel can evaluate it (`blakeLoop` instantiates the fuel with
the message length, which always suffices since every step strips 64
bytes; `blakeLoop_eq` below recovers the natural recurrence). -/
def blakeLoopAux : Nat → List Nat → Nat → List Byte → List Nat
  | 0, h, t, msg => blakeCompress h (wordsOfBlock (padBlock msg)) (t + msg.length) true
  | f + 1, h, t, msg =>
      if msg.length ≤ 64 then
        blakeCompress h (wordsOfBlock (padBlock msg)) (t + msg.length) true
      else
        blakeLoopAux f (blakeCompress h (wordsOfBlock (msg.take 64)) (t + 64) false)
          (t + 64) (msg.drop 64)

/-- Main BLAKE2s block loop (RFC 7693 §3.3): compress full 64-byte blocks
with a running byte counter; the last (possibly short or empty) block is
zero-padded and compressed with the final flag set. -/
def blakeLoop (h : List Nat) (t : Nat) (msg : List Byte) : List Nat :=
  blakeLoopAux msg.length h t msg

/-- With a message of at most 64 bytes, `blakeLoopAux` compresses the
zero-padded final block whatever the fuel is. -/
theorem blakeLoopAux_final (f : Nat) (h : List Nat) (t : Nat) (msg : List Byte)
    (hle : msg.length ≤ 64) :
    blakeLoopAux f h t msg =
      blakeCompress h (wordsOfBlock (padBlock msg)) (t + msg.length) true := by
  cases f with
  | zero => rfl
  | succ f => simp [blakeLoopAux, hle]

/-- The function `blakeLoopAux` does not depend on the fuel as long as the fuel is at
least the message length. -/
theorem blakeLoopAux_fuel (f g : Nat) (h : List Nat) (t : Nat) (msg : List Byte)
    (hf : msg.length ≤ f) (hg : msg.length ≤ g) :
    blakeLoopAux f h t msg = blakeLoopAux g h t msg := by
  induction f generalizing g h t msg with
  | zero =>
      rw [blakeLoopAux_final 0 h t msg (by omega), blakeLoopAux_final g h t msg (by omega)]
  | succ f ih =>
      by_cases hle : msg.length ≤ 64
      · rw [blakeLoopAux_final _ h t msg hle, blakeLoopAux_final g h t msg hle]
      · obtain ⟨g2, rfl⟩ : ∃ g2, g = g2 + 1 := ⟨g - 1, by omega⟩
        simp only [blakeLoopAux, hle, if_false]
        have hdrop : (msg.drop 64).length = msg.length - 64 := by simp
        exact ih g2 _ _ _ (by omega) (by omega)

/-- The source recurrence of the BLAKE2s block loop: a message of at most
64 bytes is the zero-padded final block; otherwise the first 64 bytes are
compressed as a non-final block and the loop continues on the rest. -/
theorem blakeLoop_eq (h : List Nat) (t : Nat) (msg : List Byte) :
    blakeLoop h t msg =
      if msg.length ≤ 64 then
        blakeCompress h (wordsOfBlock (padBlock msg)) (t + msg.length) true
      else
        blakeLoop (blakeCompress h (wordsOfBlock (msg.take 64)) (t + 64) false) (t + 64)
          (msg.drop 64) := by
  unfold blakeLoop
  by_cases hle : msg.length ≤ 64
  · rw [if_pos hle, blakeLoopAux_final _ h t msg hle]
  · rw [if_neg hle,
      blakeLoopAux_fuel msg.length (msg.length - 1 + 1) h t msg (le_refl _) (by omega)]
    simp only [blakeLoopAux, hle, if_false]
    have hdrop : (msg.drop 64).length = msg.length - 64 := by simp
    exact blakeLoopAux_fuel _ _ _ _ _ (by omega) (by omega)

/-- Unkeyed sequential BLAKE2s with digest length `nn` bytes
(RFC 7693 §2.5: `h0 = IV0 xor 0x0101kknn` with key length `kk = 0`);
the digest is the first `nn` bytes of the little-endian chain value.
This is the hashing core shared by the `blake2` crate types `Blake2s256`
and `Blake2sVar` that the source delegates to. -/
def blake2sCore (nn : Nat) (msg : List Byte) : List Byte :=
  let h0 := blakeIV.set 0 ((blakeIV.getD 0 0) ^^^ (0x01010000 ||| nn))
  let h := blakeLoop h0 0 msg
  (List.range nn).map (fun i => byteOf ((h.getD (i / 4) 0) >>> (8 * (i % 4))))

/-- The fixed-output `Blake2s256` hash of the `blake2` crate:
digest length 32 bytes. -/
def blake2s256 (msg : List Byte) : List Byte := blake2sCore 32 msg

/-- The variable-output `Blake2sVar` hash of the `blake2` crate,
configured for an output of `outLen` bytes. -/
def blake2sVar (outLen : Nat) (msg : List Byte) : List Byte := blake2sCore outLen msg

/-- The digest output length of `blake2sCore` is its parameter `nn`. -/
theorem blake2sCore_length (nn : Nat) (msg : List Byte) :
    (blake2sCore nn msg).length = nn := by
  simp [blake2sCore]

/-- The hash `Blake2sVar` configured for 32 output bytes computes the same digest
as the fixed-output `Blake2s256`: the RFC parameter blocks coincide
(`0x01010000 ||| 32 = 0x01010020`). -/
theorem blake2sVar_32_eq_blake2s256 (msg : List Byte) :
    blake2sVar 32 msg = blake2s256 msg := rfl

/-! ## The digest value type `Blake2sHash` -/

/-- Source: `pub struct Blake2sHash([u8; 32])`: a fixed 32-byte digest. -/
abbrev Blake2sHash := { l : List Byte // l.length = 32 }

/-- Source: `impl From<Blake2sHash> for Vec<u8>`: the digest's bytes as a vector. -/
def Blake2sHash.toVec (d : Blake2sHash) : List Byte := d.val

/-- Source: `impl From<Vec<u8>> for Blake2sHash`: `value.try_into().expect(..)`.
The `expect` panic on a wrong-length vector is embedded as `none`. -/
def Blake2sHash.ofVec (v : List Byte) : Option Blake2sHash :=
  if h : v.length = 32 then some ⟨v, h⟩ else none

/-- Source: `impl From<&[u8]> for Blake2sHash`: `value.try_into().expect(..)`.
The `expect` panic on a wrong-length slice is embedded as `none`. -/
def Blake2sHash.ofSlice (v : List Byte) : Option Blake2sHash :=
  if h : v.length = 32 then some ⟨v, h⟩ else none

/-- Source: `impl From<Blake2sHash> for [u8; 32]`: the digest's 32 bytes as a
fixed-size array (embedded as its byte list). -/
def Blake2sHash.toArray (d : Blake2sHash) : List Byte := d.val

/-- Source: `impl AsRef<[u8]> for Blake2sHash`: read-only view of the bytes. -/
def Blake2sHash.asRef (d : Blake2sHash) : List Byte := d.val

/-- The lowercase hexadecimal digit characters, in value order. -/
def hexDigitChars : List Char := "0123456789abcdef".toList

/-- Lowercase-hex encoding of one byte: two characters, high nibble first. -/
def hexByte (b : Byte) : List Char :=
  [hexDigitChars.getD (b.val / 16) '0', hexDigitChars.getD (b.val % 16) '0']

/-- Source: `hex::encode`: lowercase-hex encoding of a byte sequence. -/
def hexEncode (l : List Byte) : String := String.mk ((l.map hexByte).flatten)

/-- Source: `impl fmt::Display for Blake2sHash`: writes `hex::encode(self.0)`. -/
def Blake2sHash.display (d : Blake2sHash) : String := hexEncode d.val

/-- Source: `impl fmt::Debug for Blake2sHash`: delegates to the `Display` impl. -/
def Blake2sHash.debugStr (d : Blake2sHash) : String := Blake2sHash.display d

/-! ## The stateful hasher `Blake2sHasher`

The source wraps a `blake2::Blake2s256` accumulator. That external
state is embedded functionally by the sequence of bytes absorbed so far:
for fixed parameters the crate's accumulator is determined by the bytes
fed to `Digest::update`, and `Digest::finalize` returns the BLAKE2s
digest of exactly those bytes. -/

/-- Source: `pub struct Blake2sHasher { state: Blake2s256 }`. -/
structure Blake2sHasher where
  state : List Byte

/-- Source: `fn new() -> Self`: a fresh accumulator with no bytes absorbed. -/
def Blake2sHasher.new : Blake2sHasher := ⟨[]⟩

/-- Source: `fn reset(&mut self)`: `blake2::Digest::reset`, discarding all input. -/
def Blake2sHasher.reset (_s : Blake2sHasher) : Blake2sHasher := ⟨[]⟩

/-- Source: `fn update(&mut self, data: &[u8])`: `blake2::Digest::update`,
absorbing `data` after the bytes already absorbed. -/
def Blake2sHasher.update (s : Blake2sHasher) (data : List Byte) : Blake2sHasher :=
  ⟨s.state ++ data⟩

/-- Source: `fn finalize(self) -> Blake2sHash`: the BLAKE2s-256 digest of all
absorbed bytes. -/
def Blake2sHasher.finalize (s : Blake2sHasher) : Blake2sHash :=
  ⟨blake2s256 s.state, blake2sCore_length 32 s.state⟩

/-- Source: `fn finalize_reset(&mut self) -> Blake2sHash`: returns the digest of
all absorbed bytes and leaves the accumulator empty. -/
def Blake2sHasher.finalizeReset (s : Blake2sHasher) : Blake2sHash × Blake2sHasher :=
  (⟨blake2s256 s.state, blake2sCore_length 32 s.state⟩, ⟨[]⟩)

/-- Modelled from the spec: the `Hasher` trait's provided single-shot
entry point (`hasher.rs` is not among the given sources) — "`hash(data)`
… equivalent to `new(); update(data); finalize()`". -/
def Blake2sHasher.hash (data : List Byte) : Blake2sHash :=
  (Blake2sHasher.new.update data).finalize

/-! ## Byte-addressed memory model for `hash_many_in_place` -/

/-- Byte-addressed memory: raw pointers are addresses (`Nat`). -/
abbrev Mem := Nat → Byte

/-- Read `n` consecutive bytes starting at address `a`
(`std::slice::from_raw_parts(p, n)` at the moment the slice is read). -/
def readBytes (m : Mem) (a : Nat) : Nat → List Byte
  | 0 => []
  | n + 1 => m a :: readBytes m (a + 1) n

/-- Write the bytes `bs` to consecutive addresses starting at `q`. -/
def writeBytes (m : Mem) (q : Nat) : List Byte → Mem
  | [] => m
  | b :: bs => writeBytes (fun a => if a = q then b else m a) (q + 1) bs

/-- The body of `hash_many_in_place`'s `for_each` over the zipped
(input pointer, output pointer) pairs: for each pair, a fresh
`Blake2sVar::new(OUTPUT_SIZE)` hasher absorbs the
`single_input_length_bytes`-byte input region and finalizes directly
into the output region. -/
def runPairs (m : Mem) (len : Nat) : List (Nat × Nat) → Mem
  | [] => m
  | (p, q) :: rest =>
      runPairs (writeBytes m q (blake2sVar 32 (readBytes m p len))) len rest

/-- Source: `unsafe fn hash_many_in_place(data, single_input_length_bytes, dst)`:
zips the input-pointer and output-pointer collections and processes each
pair in order. -/
def Blake2sHasher.hashManyInPlace (m : Mem) (data : List Nat) (len : Nat)
    (dst : List Nat) : Mem :=
  runPairs m len (data.zip dst)


/-! ## Claims -/

/-- Claim C1 (counterexample): the 63-hex-character digest value given in
the spec is not the display form of the BLAKE2s hash of the byte `"a"`. -/
theorem hash_a_display_claim_false :
    ¬ ((Blake2sHasher.hash [(97 : Byte)]).display =
      "4a0d129873403037c2cd9b9048203687f6233fb6738956e0349bd4320fec3e9") := by
  decide

/-- Claim C1 (amended): hashing the single byte `"a"` (ASCII 97) with the
concrete BLAKE2s hasher yields a digest whose lowercase-hex display form
is the 64-character string
`4a0d129873403037c2cd9b9048203687f6233fb6738956e0349bd4320fec3e90`. -/
theorem hash_a_display :
    (Blake2sHasher.hash [(97 : Byte)]).display =
      "4a0d129873403037c2cd9b9048203687f6233fb6738956e0349bd4320fec3e90" := by
  decide

/-- Claim C2: feeding `A` then `B` to a fresh hasher and finalizing
yields the same digest as the single-shot hash of `A ++ B`. -/
theorem update_update_finalize_eq_hash_append (A B : List Byte) :
    ((Blake2sHasher.new.update A).update B).finalize = Blake2sHasher.hash (A ++ B) := by
  apply Subtype.ext
  simp [Blake2sHasher.finalize, Blake2sHasher.hash, Blake2sHasher.update, Blake2sHasher.new]

/-- Claim C3: for any sequence of updates, `finalize_reset` returns the
digest `finalize` would return on the same instance, and leaves the
instance in the freshly-constructed state, so a `finalize` called
immediately afterwards yields the digest of the empty input. -/
theorem finalizeReset_spec (U : List (List Byte)) :
    ((U.foldl Blake2sHasher.update Blake2sHasher.new).finalizeReset).1 =
        (U.foldl Blake2sHasher.update Blake2sHasher.new).finalize ∧
      ((U.foldl Blake2sHasher.update Blake2sHasher.new).finalizeReset).2.finalize =
        Blake2sHasher.hash [] := by
  refine ⟨rfl, ?_⟩
  apply Subtype.ext
  rfl

/-- Claim C8: hashing is deterministic — two independent runs of the
single-shot hash on the same bytes, or two fresh hashers fed the same
update sequence then finalized, produce identical digests. -/
theorem hash_deterministic (data : List Byte) (U : List (List Byte)) :
    Blake2sHasher.hash data = Blake2sHasher.hash data ∧
      (U.foldl Blake2sHasher.update Blake2sHasher.new).finalize =
        (U.foldl Blake2sHasher.update Blake2sHasher.new).finalize :=
  ⟨rfl, rfl⟩

/-- Claim C9: `reset` returns any hasher to the freshly-constructed empty
state (so a following `finalize` yields the digest of the empty input),
it has no failure mode, and it is idempotent. -/
theorem reset_spec (s : Blake2sHasher) :
    s.reset = Blake2sHasher.new ∧ s.reset.reset = s.reset ∧
      s.reset.finalize = Blake2sHasher.hash [] := by
  refine ⟨rfl, rfl, ?_⟩
  apply Subtype.ext
  rfl

/-- Claim C5: constructing a `Blake2sHash` from a vector or slice whose
length is not exactly 32 fails (the `expect` panic, embedded as `none`),
and construction from exactly 32 bytes succeeds and keeps the bytes
unchanged — no truncation or padding. -/
theorem ofVec_length_check (v : List Byte) :
    (v.length ≠ 32 → Blake2sHash.ofVec v = none ∧ Blake2sHash.ofSlice v = none) ∧
      (∀ h : v.length = 32,
        Blake2sHash.ofVec v = some ⟨v, h⟩ ∧ Blake2sHash.ofSlice v = some ⟨v, h⟩) := by
  constructor
  · intro h
    simp [Blake2sHash.ofVec, Blake2sHash.ofSlice, h]
  · intro h
    simp [Blake2sHash.ofVec, Blake2sHash.ofSlice, h]

/-- Claim C5 witness: a 1-byte vector is rejected; a 32-byte vector is
accepted unchanged. -/
theorem ofVec_length_check_witness :
    Blake2sHash.ofVec [(0 : Byte)] = none ∧
      Blake2sHash.ofVec (List.replicate 32 (0 : Byte)) =
        some ⟨List.replicate 32 (0 : Byte), by decide⟩ :=
  ⟨((ofVec_length_check [(0 : Byte)]).1 (by decide)).1,
   ((ofVec_length_check (List.replicate 32 (0 : Byte))).2 (by decide)).1⟩

/-- Claim C6: converting a digest to a byte vector and back, or to a
fixed 32-byte array and back (through the slice conversion), reproduces
the identical digest. -/
theorem digest_roundtrip (d : Blake2sHash) :
    Blake2sHash.ofVec d.toVec = some d ∧ Blake2sHash.ofSlice d.toArray = some d := by
  constructor <;>
    simp [Blake2sHash.ofVec, Blake2sHash.ofSlice, Blake2sHash.toVec, Blake2sHash.toArray,
      d.property]

/-- Any `getD` lookup into the hex digit table lands in the table (the
default character `'0'` is itself a table entry). -/
theorem getD_hexDigitChars_mem (n : Nat) : hexDigitChars.getD n '0' ∈ hexDigitChars := by
  rcases Nat.lt_or_ge n 16 with h | h
  · rw [List.getD_eq_getElem _ _ (by simpa [hexDigitChars] using h)]
    exact List.getElem_mem _
  · rw [List.getD_eq_default _ _ (by simpa [hexDigitChars] using h)]
    decide

/-- The hex encoding of a byte list has two characters per byte. -/
theorem hexEncode_length (l : List Byte) : ((l.map hexByte).flatten).length = 2 * l.length := by
  induction l with
  | nil => rfl
  | cons b bs ih =>
      simp only [List.map_cons, List.flatten_cons, List.length_append, ih, hexByte,
        List.length_cons]
      simp [Nat.mul_succ]
      omega

/-- Every character of the hex encoding is a lowercase hex digit. -/
theorem hexEncode_mem (l : List Byte) (c : Char) (hc : c ∈ (l.map hexByte).flatten) :
    c ∈ hexDigitChars := by
  rw [List.mem_flatten] at hc
  obtain ⟨sub, hsub, hcsub⟩ := hc
  rw [List.mem_map] at hsub
  obtain ⟨b, _, rfl⟩ := hsub
  simp only [hexByte, List.mem_cons, List.not_mem_nil, or_false] at hcsub
  rcases hcsub with rfl | rfl
  · exact getD_hexDigitChars_mem _
  · exact getD_hexDigitChars_mem _

/-- Claim C7: the `Display` form of a digest is the lowercase hexadecimal
encoding of its 32 raw bytes (64 characters, each a lowercase hex digit),
it is deterministic across repeated calls, and the `Debug` representation
equals the `Display` representation. -/
theorem display_spec (d : Blake2sHash) :
    d.debugStr = d.display ∧
      d.display = hexEncode d.val ∧
      (d.display).length = 64 ∧
      (∀ c ∈ (d.display).data, c ∈ hexDigitChars) ∧
      d.display = d.display := by
  refine ⟨rfl, rfl, ?_, ?_, rfl⟩
  · show ((d.val.map hexByte).flatten).length = 64
    rw [hexEncode_length, d.property]
  · intro c hc
    exact hexEncode_mem d.val c hc

/-- Claim C7 witness: evaluated on the all-zero digest, with the
character hypothesis discharged at `'0'`. -/
theorem display_spec_witness :
    (Blake2sHash.debugStr ⟨List.replicate 32 (0 : Byte), by decide⟩ =
        Blake2sHash.display ⟨List.replicate 32 (0 : Byte), by decide⟩) ∧
      '0' ∈ hexDigitChars :=
  ⟨(display_spec ⟨List.replicate 32 (0 : Byte), by decide⟩).1,
   (display_spec ⟨List.replicate 32 (0 : Byte), by decide⟩).2.2.2.1 '0' (by decide)⟩

/-- The digest output length of `blake2sVar` is its configured length. -/
theorem blake2sVar_length (n : Nat) (msg : List Byte) :
    (blake2sVar n msg).length = n := blake2sCore_length n msg

/-- Addresses outside `[q, q + bs.length)` keep their previous contents
after `writeBytes`. -/
theorem writeBytes_outside (bs : List Byte) (m : Mem) (q a : Nat)
    (h : a < q ∨ q + bs.length ≤ a) : writeBytes m q bs a = m a := by
  induction bs generalizing m q with
  | nil => rfl
  | cons b bs ih =>
      have hlen : (b :: bs).length = bs.length + 1 := rfl
      rw [hlen] at h
      simp only [writeBytes]
      rw [ih _ (q + 1) (by omega)]
      have hne : a ≠ q := by omega
      simp [hne]

/-- Two memories agreeing on `[a, a + n)` read the same bytes there. -/
theorem readBytes_congr (m1 m2 : Mem) (a n : Nat)
    (h : ∀ x, a ≤ x → x < a + n → m1 x = m2 x) :
    readBytes m1 a n = readBytes m2 a n := by
  induction n generalizing a with
  | zero => rfl
  | succ n ih =>
      simp only [readBytes]
      rw [h a (le_refl a) (by omega), ih (a + 1) (fun x hx1 hx2 => h x (by omega) (by omega))]

/-- Reading a region disjoint from a write sees the old contents. -/
theorem readBytes_writeBytes_disjoint (bs : List Byte) (m : Mem) (q a n : Nat)
    (h : a + n ≤ q ∨ q + bs.length ≤ a) :
    readBytes (writeBytes m q bs) a n = readBytes m a n :=
  readBytes_congr _ _ a n (fun x hx1 hx2 => writeBytes_outside bs m q x (by omega))

/-- Reading back a region just written yields the written bytes. -/
theorem readBytes_writeBytes (bs : List Byte) (m : Mem) (q : Nat) :
    readBytes (writeBytes m q bs) q bs.length = bs := by
  induction bs generalizing m q with
  | nil => rfl
  | cons b bs ih =>
      simp only [List.length_cons, writeBytes, readBytes]
      congr 1
      · rw [writeBytes_outside bs _ (q + 1) q (Or.inl (by omega))]
        simp
      · exact ih _ (q + 1)

/-- The loop `runPairs` only writes inside the 32-byte output regions: any other
address keeps its previous contents. -/
theorem runPairs_outside (pairs : List (Nat × Nat)) (m : Mem) (len a : Nat)
    (h : ∀ pq ∈ pairs, ¬ (pq.2 ≤ a ∧ a < pq.2 + 32)) :
    runPairs m len pairs a = m a := by
  induction pairs generalizing m with
  | nil => rfl
  | cons pq rest ih =>
      obtain ⟨p, q⟩ := pq
      simp only [runPairs]
      rw [ih _ (fun x hx => h x (List.mem_cons_of_mem _ hx))]
      refine writeBytes_outside _ m q a ?_
      rw [blake2sVar_length]
      have h0 := h (p, q) (List.mem_cons_self _ _)
      omega

/-- Reading a region disjoint from every output region of `runPairs`
sees the old contents. -/
theorem readBytes_runPairs_outside (pairs : List (Nat × Nat)) (m : Mem) (len a n : Nat)
    (h : ∀ pq ∈ pairs, a + n ≤ pq.2 ∨ pq.2 + 32 ≤ a) :
    readBytes (runPairs m len pairs) a n = readBytes m a n :=
  readBytes_congr _ _ a n (fun x hx1 hx2 => runPairs_outside pairs m len x
    (fun pq hpq => by have := h pq hpq; omega))

/-- Core correctness of the batch loop: with pairwise-disjoint 32-byte
output regions, each disjoint from every input region, the `i`-th output
region of the final memory holds the `Blake2sVar`-32 digest of the `i`-th
input region of the initial memory. -/
theorem runPairs_correct (pairs : List (Nat × Nat)) (m : Mem) (len : Nat)
    (hout : pairs.Pairwise (fun x y => x.2 + 32 ≤ y.2 ∨ y.2 + 32 ≤ x.2))
    (hinout : ∀ x ∈ pairs, ∀ y ∈ pairs, x.1 + len ≤ y.2 ∨ y.2 + 32 ≤ x.1)
    (i : Nat) (hi : i < pairs.length) :
    readBytes (runPairs m len pairs) ((pairs.getD i (0, 0)).2) 32 =
      blake2sVar 32 (readBytes m ((pairs.getD i (0, 0)).1) len) := by
  induction pairs generalizing m i with
  | nil => exact absurd hi (by simp)
  | cons pq rest ih =>
      obtain ⟨p, q⟩ := pq
      simp only [runPairs]
      cases i with
      | zero =>
          simp only [List.getD_cons_zero]
          have hdis := (List.pairwise_cons.mp hout).1
          rw [readBytes_runPairs_outside rest _ len q 32
            (fun x hx => by have := hdis x hx; omega)]
          have hlen : (blake2sVar 32 (readBytes m p len)).length = 32 :=
            blake2sVar_length 32 _
          rw [← hlen]
          exact readBytes_writeBytes _ m q
      | succ i =>
          simp only [List.getD_cons_succ]
          have hi2 : i < rest.length := by simpa using hi
          rw [ih _ (List.pairwise_cons.mp hout).2
            (fun x hx y hy =>
              hinout x (List.mem_cons_of_mem _ hx) y (List.mem_cons_of_mem _ hy)) i hi2]
          have hmem : rest.getD i (0, 0) ∈ rest := by
            rw [List.getD_eq_getElem _ _ hi2]
            exact List.getElem_mem _
          have hd := hinout (rest.getD i (0, 0)) (List.mem_cons_of_mem _ hmem) (p, q)
            (List.mem_cons_self _ _)
          congr 1
          refine readBytes_writeBytes_disjoint _ m q _ len ?_
          rw [blake2sVar_length]
          omega

/-- Claim C4: for `N` inputs of exactly `len` bytes and `N` valid,
pairwise-disjoint 32-byte output regions (each also disjoint from every
input region), `hash_many_in_place` writes at the `i`-th output location
exactly the 32 bytes of the single-shot digest of the `i`-th input, for
every `i`, independently of `N` and of where the outputs sit in memory. -/
theorem hash_many_in_place_spec (m : Mem) (data dst : List Nat) (len i : Nat)
    (hN : data.length = dst.length)
    (hout : (data.zip dst).Pairwise (fun x y => x.2 + 32 ≤ y.2 ∨ y.2 + 32 ≤ x.2))
    (hinout : ∀ x ∈ data.zip dst, ∀ y ∈ data.zip dst, x.1 + len ≤ y.2 ∨ y.2 + 32 ≤ x.1)
    (hi : i < data.length) :
    readBytes (Blake2sHasher.hashManyInPlace m data len dst) (dst.getD i 0) 32 =
      (Blake2sHasher.hash (readBytes m (data.getD i 0) len)).val := by
  have hz : i < (data.zip dst).length := by
    rw [List.length_zip]
    omega
  have hgd : (data.zip dst).getD i (0, 0) = (data.getD i 0, dst.getD i 0) := by
    rw [List.getD_eq_getElem _ _ hz, List.getElem_zip,
      List.getD_eq_getElem _ _ hi, List.getD_eq_getElem _ _ (by omega)]
  have h := runPairs_correct (data.zip dst) m len hout hinout i hz
  rw [hgd] at h
  exact h

/-- Concrete memory for the batch witnesses: byte 97 (`"a"`) at address
100 and byte 98 (`"b"`) at address 101, zero elsewhere. -/
def mem0 : Mem := fun n => if n = 100 then byteOf 97 else if n = 101 then byteOf 98 else byteOf 0

/-- Claim C4 witness: two 1-byte inputs at addresses 100 and 101, output
regions at 0 and 42; the first output region receives the digest of the
first input. -/
theorem hash_many_in_place_spec_witness :
    readBytes (Blake2sHasher.hashManyInPlace mem0 [100, 101] 1 [0, 42]) 0 32 =
      (Blake2sHasher.hash (readBytes mem0 100 1)).val :=
  hash_many_in_place_spec mem0 [100, 101] [0, 42] 1 0 (by decide) (by decide) (by decide)
    (by decide)

/-- Zipping truncates to the shorter list: `zip` equals `zip` of the
prefixes of length `min`. -/
theorem zip_eq_zip_take (data dst : List Nat) :
    data.zip dst =
      (data.take (min data.length dst.length)).zip
        (dst.take (min data.length dst.length)) := by
  induction data generalizing dst with
  | nil => simp
  | cons a as ih =>
      cases dst with
      | nil => simp
      | cons b bs =>
          have hmin : min (as.length + 1) (bs.length + 1) = min as.length bs.length + 1 := by
            omega
          simp only [List.zip_cons_cons, List.length_cons, hmin, List.take_succ_cons]
          rw [ih bs]

/-- Claim C10: with input and output pointer collections of different
lengths, `hash_many_in_place` processes exactly the first
`min(|data|, |dst|)` pairs — the zip of the two collections — and writes
no memory outside those output regions: extra inputs or extra output
slots are silently ignored. -/
theorem hash_many_zip_spec (m : Mem) (data dst : List Nat) (len : Nat) :
    (Blake2sHasher.hashManyInPlace m data len dst =
        Blake2sHasher.hashManyInPlace m (data.take (min data.length dst.length)) len
          (dst.take (min data.length dst.length))) ∧
      ∀ a, (∀ pq ∈ data.zip dst, ¬ (pq.2 ≤ a ∧ a < pq.2 + 32)) →
        Blake2sHasher.hashManyInPlace m data len dst a = m a := by
  constructor
  · unfold Blake2sHasher.hashManyInPlace
    rw [← zip_eq_zip_take]
  · intro a ha
    exact runPairs_outside _ m len a ha

/-- Claim C10 witness: three inputs but a single output slot — only the
first pair is processed, and an address outside the single output region
is untouched. -/
theorem hash_many_zip_spec_witness :
    (Blake2sHasher.hashManyInPlace mem0 [100, 101, 102] 1 [0] =
        Blake2sHasher.hashManyInPlace mem0
          ([100, 101, 102].take
            (min ([100, 101, 102] : List Nat).length ([0] : List Nat).length)) 1
          ([0].take (min ([100, 101, 102] : List Nat).length ([0] : List Nat).length))) ∧
      Blake2sHasher.hashManyInPlace mem0 [100, 101, 102] 1 [0] 999 = mem0 999 :=
  ⟨(hash_many_zip_spec mem0 [100, 101, 102] [0] 1).1,
   (hash_many_zip_spec mem0 [100, 101, 102] [0] 1).2 999 (by decide)⟩
